import Mathlib

/-
  Verification development for the StudyMate study-aid application.

  The definitions below are a shallow embedding of the three study-session
  engines of the repository (Flashcards, Memorise-Level, Test) together with
  the mastery persistence and distractor-fallback logic.  Each definition is
  translated from the corresponding source function; randomness (Math.random)
  is modelled by explicit parameters (index streams and shuffle functions),
  JS Date.now timestamps by a Nat parameter, and localStorage by a total map
  from keys to optionally-present parsed profiles.
-/

namespace StudyMate

/-- A flashcard: immutable study unit (src/types.ts).  The optional image and
language tags are not semantic to any engine and are omitted. -/
structure Card where
  id : String
  term : String
  definition : String
  deriving DecidableEq

/-- Per (set, card) persisted mastery record.  The ISO timestamp string is
modelled as a Nat. -/
structure CardMasteryRecord where
  mastery : Int
  lastReviewed : Nat
  consecutiveCorrect : Nat
  attempts : Nat
  deriving DecidableEq

/-- Default record used by the engines when no record exists yet
(mastery 0, attempts 0, consecutiveCorrect 0). -/
def defaultRecord : CardMasteryRecord :=
  { mastery := 0, lastReviewed := 0, consecutiveCorrect := 0, attempts := 0 }

/-- A study set as stored in the profile: id, cards and the mastery map
keyed by card id (src/types.ts). -/
structure StudySetRec where
  id : String
  title : String
  cards : List Card
  mastery : String → Option CardMasteryRecord

/-! ## Flashcard Session Engine (src/FlashcardsMode.tsx) -/

/-- The two ratings a user can give to a flashcard. -/
inductive Rating
  | know
  | dont_know
  deriving DecidableEq

/-- Session states of the flashcard engine. -/
inductive FSessionState
  | setup
  | active
  | finished
  deriving DecidableEq

/-- The two flashcard modes. -/
inductive FMode
  | standard
  | memorise_all
  deriving DecidableEq

/-- In-memory state of a flashcard session (the React useState hooks of
FlashcardsMode). -/
structure FlashState where
  queue : List Card
  currentIndex : Nat
  sessionState : FSessionState
  sessionMasteredCount : Nat
  masteredIds : List String
  isFlipped : Bool
  deriving DecidableEq

/-- `handleNextCardStandard` of FlashcardsMode: advance the index cursor, or
finish past the last card.  The queue itself is untouched. -/
def handleNextCardStandard (s : FlashState) : FlashState :=
  if s.currentIndex < s.queue.length - 1 then
    { s with currentIndex := s.currentIndex + 1, isFlipped := false }
  else
    { s with sessionState := FSessionState.finished }

/-- `handleNextCardMemorise` of FlashcardsMode: on know the head is removed
and the mastered count incremented; on dont_know the head is removed and
re-inserted at position min(queueLength, 3) of the post-removal queue; the
session finishes when the queue becomes empty.  The source reads queue[0],
which the UI only does on a nonempty queue; an empty queue is left as is. -/
def handleNextCardMemorise (s : FlashState) (rating : Rating) : FlashState :=
  match s.queue with
  | [] => s
  | card :: rest =>
    if rating = Rating.know then
      let newQueue := rest
      { s with
        queue := newQueue
        sessionMasteredCount := s.sessionMasteredCount + 1
        masteredIds := s.masteredIds.insert card.id
        isFlipped := false
        sessionState :=
          if newQueue.isEmpty then FSessionState.finished else s.sessionState }
    else
      let insertIndex := min rest.length 3
      let newQueue := rest.insertIdx insertIndex card
      { s with
        queue := newQueue
        isFlipped := false
        sessionState :=
          if newQueue.isEmpty then FSessionState.finished else s.sessionState }

/-- The new mastery value computed by `handleRating` of FlashcardsMode:
minus 20 clamped at 0 on dont_know, plus 20 clamped at 100 on know. -/
def handleRatingMastery (currentMastery : Int) (rating : Rating) : Int :=
  if rating = Rating.dont_know then max 0 (currentMastery - 20)
  else min 100 (currentMastery + 20)

/-- The card currently displayed: queue[currentIndex] in standard mode,
queue[0] in memorise_all mode. -/
def currentCard (mode : FMode) (s : FlashState) : Option Card :=
  match mode with
  | FMode.standard => s.queue.get? s.currentIndex
  | FMode.memorise_all => s.queue.head?

/-- `handleRating` of FlashcardsMode: look up the displayed card, compute the
new mastery from the stored mastery (0 when absent), emit the
onUpdateMastery call (returned as the second component) and advance
according to the mode. -/
def handleRating (mode : FMode) (s : FlashState)
    (mastery : String → Option CardMasteryRecord) (rating : Rating) :
    FlashState × Option (String × Int) :=
  match currentCard mode s with
  | none => (s, none)
  | some card =>
    let currentMastery := ((mastery card.id).map (fun r => r.mastery)).getD 0
    let newMastery := handleRatingMastery currentMastery rating
    let s' :=
      match mode with
      | FMode.standard => handleNextCardStandard s
      | FMode.memorise_all => handleNextCardMemorise s rating
    (s', some (card.id, newMastery))

/-- `handleUpdateMastery` of StudySetsPage (the onUpdateMastery callback):
upsert the record for the card, clamping the written mastery to [0,100]
and stamping lastReviewed; consecutiveCorrect and attempts default to 0
for a fresh record and are preserved otherwise. -/
def handleUpdateMastery (set : StudySetRec) (cardId : String)
    (newMastery : Int) (now : Nat) : StudySetRec :=
  let old := (set.mastery cardId).getD defaultRecord
  { set with
    mastery := fun k =>
      if k = cardId then
        some { old with
               mastery := min 100 (max 0 newMastery)
               lastReviewed := now }
      else set.mastery k }

/-! ## Memorise-Level Engine (MemoriseMode in src/components/SettingsPanel.tsx) -/

/-- The phase of a memorise level: the normal pass, or the level-1 retry
subphase. -/
inductive MPhase
  | normal
  | retry
  deriving DecidableEq

/-- The three ways a queue entry can be answered: a correct answer, an
incorrect answer, or the explicit dont-know skip button. -/
inductive MAnswer
  | correct
  | incorrect
  | dontKnow
  deriving DecidableEq

/-- The per-level tracking state of MemoriseMode that the answer handlers
mutate: levelMasteredIds, answeredIncorrectlyIds and the current phase. -/
structure MemLevelTrack where
  levelMasteredIds : List String
  answeredIncorrectlyIds : List String
  phase : MPhase
  deriving DecidableEq

/-- `processAnswer` of MemoriseMode: in the normal phase a correct answer
marks the card level-mastered unless it was already answered incorrectly
this level, and an incorrect answer records the card as answered
incorrectly; in the retry phase nothing is recorded. -/
def processAnswer (st : MemLevelTrack) (isCorrect : Bool) (cardId : String) :
    MemLevelTrack :=
  if st.phase = MPhase.normal then
    if isCorrect then
      if cardId ∈ st.answeredIncorrectlyIds then st
      else { st with levelMasteredIds := st.levelMasteredIds.insert cardId }
    else
      { st with answeredIncorrectlyIds := st.answeredIncorrectlyIds.insert cardId }
  else st

/-- `handleDontKnow` of MemoriseMode: in the normal phase the skipped card is
recorded as answered incorrectly; in the retry phase nothing is recorded. -/
def handleDontKnow (st : MemLevelTrack) (cardId : String) : MemLevelTrack :=
  if st.phase = MPhase.normal then
    { st with answeredIncorrectlyIds := st.answeredIncorrectlyIds.insert cardId }
  else st

/-- One answer event dispatched to the handlers: MCQ and typed answers both
reach `processAnswer` with their correctness, the skip button reaches
`handleDontKnow`. -/
def memAnswerStep (st : MemLevelTrack) (e : String × MAnswer) : MemLevelTrack :=
  match e.2 with
  | MAnswer.correct => processAnswer st true e.1
  | MAnswer.incorrect => processAnswer st false e.1
  | MAnswer.dontKnow => handleDontKnow st e.1

/-- A sequence of answer events processed in order. -/
def memAnswerRun (st : MemLevelTrack) (es : List (String × MAnswer)) :
    MemLevelTrack :=
  es.foldl memAnswerStep st

/-- An event is a wrong answer for a given card: an incorrect answer or an
explicit dont-know skip of that card. -/
def wrongFor (id : String) (e : String × MAnswer) : Prop :=
  e.1 = id ∧ e.2 ≠ MAnswer.correct

instance (id : String) (e : String × MAnswer) : Decidable (wrongFor id e) := by
  unfold wrongFor; infer_instance

/-- JavaScript `array.slice(0, i)` for a possibly negative end index. -/
def jsSliceTo {α : Type} (l : List α) (i : Int) : List α :=
  l.take (Int.toNat (if i < 0 then (l.length : Int) + i else i))

/-- JavaScript `array.slice(i)` for a possibly negative start index. -/
def jsSliceFrom {α : Type} (l : List α) (i : Int) : List α :=
  l.drop (Int.toNat (if i < 0 then (l.length : Int) + i else i))

/-- The queue construction of `startLevel` of MemoriseMode, before the random
shuffle and the conversion of cards into typed questions (both of which
wrap each card in exactly one queue entry): slots left after the carry-over
cards are filled from the front of the unseen pool; returns the raw queue
and the new unseen pool.  slotsAvailable is computed in JS arithmetic, so
it can be negative, in which case slice semantics apply. -/
def startLevelQueue (wordsPerLevel : Nat) (unmastered remaining : List Card) :
    List Card × List Card :=
  let slotsAvailable : Int := (wordsPerLevel : Int) - unmastered.length
  let newCards := jsSliceTo remaining slotsAvailable
  let newRemaining := jsSliceFrom remaining slotsAvailable
  (unmastered ++ newCards, newRemaining)

/-- The carry-over computation of `proceedToNextLevel` of MemoriseMode: all
set cards whose id is neither in the union of overallMasteredIds and
levelMasteredIds nor among the ids of the unseen pool. -/
def proceedCarryOver (setCards : List Card)
    (overallMasteredIds levelMasteredIds : List String)
    (remaining : List Card) : List Card :=
  setCards.filter (fun c =>
    decide (c.id ∉ overallMasteredIds ∧ c.id ∉ levelMasteredIds ∧
      c.id ∉ remaining.map (fun d => d.id)))

/-- Outcome of `proceedToNextLevel`: either the session finishes, or the next
level starts with the computed carry-over and the unchanged unseen pool. -/
inductive ProceedResult
  | finished
  | nextLevel (unmastered : List Card) (remaining : List Card)
  deriving DecidableEq

/-- `proceedToNextLevel` of MemoriseMode: finish exactly when both the
carry-over and the unseen pool are empty, otherwise start the next level. -/
def proceedToNextLevel (setCards : List Card)
    (overallMasteredIds levelMasteredIds : List String)
    (remaining : List Card) : ProceedResult :=
  let carryOver := proceedCarryOver setCards overallMasteredIds levelMasteredIds remaining
  if carryOver.isEmpty && remaining.isEmpty then ProceedResult.finished
  else ProceedResult.nextLevel carryOver remaining

/-- `finishLevel` of MemoriseMode: merge the level-mastered ids into the
overall mastered set. -/
def finishLevelMerge (overallMasteredIds levelMasteredIds : List String) :
    List String :=
  levelMasteredIds.foldl (fun acc i => acc.insert i) overallMasteredIds

/-! ## Distractor fallback sampler (getFallbackDistractors in TestMode) -/

/-- The fixed generic filler distractors of `getFallbackDistractors`. -/
def genericDistractors : List String :=
  ["Incorrect Answer A", "Incorrect Answer B", "Incorrect Answer C",
   "Incorrect Answer D"]

/-- JavaScript `Set.add` on an insertion-ordered duplicate-free list: append
the element if it is not already present. -/
def setAdd (options : List String) (x : String) : List String :=
  if x ∈ options then options else options ++ [x]

/-- The first while loop of `getFallbackDistractors`: as long as fewer than
count options were collected and candidate cards remain, pick a random
candidate (index given by the stream `rands`, one entry per iteration,
reduced modulo the number of candidates), add its definition to the option
set, and remove it from the candidates.  The loop runs at most one
iteration per initial candidate, so a fuel of the candidate count makes the
structural recursion total without changing the result. -/
def sampleDistractorsLoop (count : Nat) (rands : Nat → Nat) :
    Nat → Nat → List String → List Card → List String
  | 0, _, options, _ => options
  | _ + 1, _, options, [] => options
  | fuel + 1, k, options, d :: ds =>
    if options.length < count then
      let distractors := d :: ds
      let i := rands k % distractors.length
      let picked := (distractors.getD i d).definition
      sampleDistractorsLoop count rands fuel (k + 1) (setAdd options picked)
        (distractors.eraseIdx i)
    else options

/-- The second while loop of `getFallbackDistractors`: fill the option set
with generic placeholders while it is still short of count and generic
candidates remain. -/
def addGenericLoop (count : Nat) (options : List String) :
    List String → List String
  | [] => options
  | g :: rest =>
    if options.length < count then addGenericLoop count (setAdd options g) rest
    else options

/-- `getFallbackDistractors` of TestMode: sample definitions of other cards
(filtered by card id) without replacement, then pad with generic fillers;
the collected options form an insertion-ordered set, returned as an
array. -/
def getFallbackDistractors (correctCard : Card) (allCards : List Card)
    (count : Nat) (rands : Nat → Nat) : List String :=
  let distractors := allCards.filter (fun c => c.id ≠ correctCard.id)
  let options := sampleDistractorsLoop count rands distractors.length 0 [] distractors
  addGenericLoop count options genericDistractors

/-! ## Test Session Engine (TestMode) -/

/-- The settings TestMode reads from the stored profile; only the fields the
modelled logic consults are kept. -/
structure TestSettings where
  numberOfChoices : Nat
  masteryThreshold : Nat
  autoSave : Bool
  shuffleChoices : Bool
  deriving DecidableEq

/-- The default testMode settings used when no profile is stored. -/
def DEFAULT_TEST_SETTINGS : TestSettings :=
  { numberOfChoices := 4, masteryThreshold := 3, autoSave := true,
    shuffleChoices := true }

/-- JavaScript `n || d` on numbers: d when n is 0 (falsy), n otherwise.
Used for `settings.masteryThreshold || 3` and `numberOfChoices || 4`. -/
def jsOrNat (n d : Nat) : Nat := if n = 0 then d else n

/-- A question instance in the Test queue.  The Date.now component of the
generated instance ids is dropped (ids only force re-renders). -/
structure Question where
  id : String
  questionText : String
  correctAnswer : String
  options : List String
  originalCardId : String
  hint : String
  deriving DecidableEq

/-- In-memory state of a Test session: the working queue, the per-card
consecutive-correct map, and the finished flag. -/
structure TestState where
  queue : List Question
  consecutiveCorrectMap : String → Nat
  isFinished : Bool

/-- `handleAnswer` of TestMode restricted to its session-state effect: on a
correct answer the streak of the head question card is incremented, on an
incorrect answer it is reset to 0.  (The accompanying saveProgress call is
modelled separately below.)  The source reads queue[0]; an empty queue is
left unchanged. -/
def handleAnswer (s : TestState) (option : String) : TestState :=
  match s.queue with
  | [] => s
  | currentQ :: _ =>
    if option = currentQ.correctAnswer then
      let currentStreak := s.consecutiveCorrectMap currentQ.originalCardId + 1
      { s with consecutiveCorrectMap := fun k =>
          if k = currentQ.originalCardId then currentStreak
          else s.consecutiveCorrectMap k }
    else
      { s with consecutiveCorrectMap := fun k =>
          if k = currentQ.originalCardId then 0
          else s.consecutiveCorrectMap k }

/-- `handleNext` of TestMode: drop the head of the queue; on a correct answer
whose streak is still below the threshold, append a fresh instance of the
question at the end; on an incorrect answer insert a fresh instance at
position min(queueLength, 2) of the post-removal queue; the session
finishes when the queue becomes empty.  `threshold` is the raw
settings.masteryThreshold, defaulted through `|| 3` as in the source. -/
def handleNext (threshold : Nat) (s : TestState) (selectedAnswer : String) :
    TestState :=
  match s.queue with
  | [] => s
  | currentQ :: rest =>
    let isCorrect := selectedAnswer = currentQ.correctAnswer
    let currentStreak := s.consecutiveCorrectMap currentQ.originalCardId
    let thr := jsOrNat threshold 3
    let newQueue :=
      if isCorrect then
        if currentStreak < thr then
          rest ++ [{ currentQ with id := "retry-" ++ currentQ.id }]
        else rest
      else
        let insertIndexW := min rest.length 2
        rest.insertIdx insertIndexW { currentQ with id := "retry-wrong-" ++ currentQ.id }
    { s with
      queue := newQueue
      isFinished := if newQueue.isEmpty then true else s.isFinished }

/-- One full user interaction on the current question: answer it with the
given option, then click Next. -/
def testStep (threshold : Nat) (s : TestState) (option : String) : TestState :=
  handleNext threshold (handleAnswer s option) option

/-- A sequence of interactions. -/
def testRun (threshold : Nat) (s : TestState) (options : List String) :
    TestState :=
  options.foldl (testStep threshold) s

/-- One interaction in which the user picks the correct answer of the head
question. -/
def testStepCorrect (threshold : Nat) (s : TestState) : TestState :=
  match s.queue with
  | [] => s
  | currentQ :: _ => testStep threshold s currentQ.correctAnswer

/-- n interactions, all answered correctly. -/
def testRunCorrect (threshold : Nat) : TestState → Nat → TestState
  | s, 0 => s
  | s, n + 1 => testRunCorrect threshold (testStepCorrect threshold s) n

/-! ## Persistence: profile, storage keys, saveProgress (TestMode) and the
application persistence (App component) -/

/-- The stored user profile; only the parts the modelled logic touches are
kept (study sets and the optional testMode settings). -/
structure UserProfile where
  studySets : List StudySetRec
  settingsTestMode : Option TestSettings

/-- The abstract key-value storage (localStorage); values are stored parsed,
abstracting JSON serialisation. -/
def Storage : Type := String → Option UserProfile

/-- `localStorage.setItem`. -/
def setItem (st : Storage) (key : String) (value : UserProfile) : Storage :=
  fun k => if k = key then some value else st k

/-- The storage key TestMode reads and writes
(src TestMode component, `localStorage.getItem` and `setItem` calls). -/
def TEST_STORAGE_KEY : String := "studymate_user_profile_v3"

/-- The storage key the application component loads and persists the user
profile under (`const APP_STORAGE_KEY` in the App source). -/
def APP_STORAGE_KEY : String := "studymate_user_profile_v5"

/-- The profile read TestMode performs at mount (`localStorage.getItem` of
its key). -/
def testLoadStoredProfile (st : Storage) : Option UserProfile :=
  st TEST_STORAGE_KEY

/-- The settings TestMode derives from its stored profile:
`profile?.settings?.testMode ||` defaults. -/
def testLoadSettings (st : Storage) : TestSettings :=
  match testLoadStoredProfile st with
  | none => DEFAULT_TEST_SETTINGS
  | some p => p.settingsTestMode.getD DEFAULT_TEST_SETTINGS

/-- The profile read the application performs at mount. -/
def appLoadProfile (st : Storage) : Option UserProfile :=
  st APP_STORAGE_KEY

/-- The profile write the application performs on every profile update. -/
def appPersistProfile (st : Storage) (p : UserProfile) : Storage :=
  setItem st APP_STORAGE_KEY p

/-- JavaScript `Math.round` on a nonnegative quantity: floor of x + 1/2. -/
def jsRound (q : ℚ) : ℤ := ⌊q + 1 / 2⌋

/-- The mastery percentage written by `saveProgress` of TestMode:
min(100, round((newConsecutive / threshold) * 100)), with threshold the
`masteryThreshold || 3` of the settings. -/
def newMasteryPct (newConsecutive threshold : Nat) : Int :=
  min 100 (jsRound ((newConsecutive : ℚ) / (jsOrNat threshold 3 : ℚ) * 100))

/-- The per-set update of `saveProgress` of TestMode: read the stored record
of the card (defaulting to a fresh one), recompute the consecutive-correct
counter from the stored record, derive the mastery percentage, bump
attempts and stamp lastReviewed. -/
def saveProgressSet (set : StudySetRec) (cardId : String) (isCorrect : Bool)
    (threshold : Nat) (now : Nat) : StudySetRec :=
  let cardMastery := (set.mastery cardId).getD defaultRecord
  let newConsecutive := if isCorrect then cardMastery.consecutiveCorrect + 1 else 0
  { set with
    mastery := fun k =>
      if k = cardId then
        some { cardMastery with
               consecutiveCorrect := newConsecutive
               mastery := newMasteryPct newConsecutive threshold
               lastReviewed := now
               attempts := cardMastery.attempts + 1 }
      else set.mastery k }

/-- The profile-level update of `saveProgress`: locate the set by id
(findIndex); when absent, nothing changes. -/
def saveProgressProfile (p : UserProfile) (setId cardId : String)
    (isCorrect : Bool) (threshold : Nat) (now : Nat) : UserProfile :=
  match p.studySets.findIdx? (fun s => s.id = setId) with
  | none => p
  | some i =>
    match p.studySets.get? i with
    | none => p
    | some currentSet =>
      { p with studySets :=
          p.studySets.set i (saveProgressSet currentSet cardId isCorrect threshold now) }

/-- `saveProgress` of TestMode as a storage transformer: a no-op unless
auto-save is enabled; otherwise read the stored profile from the TestMode
storage key (a no-op when absent), update it and write it back under the
same key. -/
def saveProgress (settings : TestSettings) (st : Storage)
    (setId cardId : String) (isCorrect : Bool) (now : Nat) : Storage :=
  if settings.autoSave = false then st
  else
    match st TEST_STORAGE_KEY with
    | none => st
    | some currentProfile =>
      setItem st TEST_STORAGE_KEY
        (saveProgressProfile currentProfile setId cardId isCorrect
          settings.masteryThreshold now)

/-! ## Test session initialisation (initTest) -/

/-- The question construction of `initTest` of TestMode for one card: the
distractors are the provider result when it is nonempty, otherwise the
local fallback sampler is invoked with `(numberOfChoices || 4) - 1`; the
options are the correct definition followed by the distractors, shuffled
when configured (the shuffle is an arbitrary parameter standing for the
random comparator sort). -/
def buildQuestion (numberOfChoices : Nat) (shuffleChoices : Bool)
    (optShuffle : List String → List String) (card : Card)
    (allCards : List Card) (provided : List String) (rands : Nat → Nat) :
    Question :=
  let distractors :=
    if provided.length > 0 then provided
    else getFallbackDistractors card allCards (jsOrNat numberOfChoices 4 - 1) rands
  let options := card.definition :: distractors
  let options := if shuffleChoices then optShuffle options else options
  { id := "q-" ++ card.id
    questionText := card.term
    correctAnswer := card.definition
    options := options
    originalCardId := card.id
    hint := card.term.take 1 ++ "..." }

/-- The queue `initTest` builds: one question per loaded card (the provider
results are indexed like the awaited allDistractors array, the random
streams per card).  Provider failures were already converted to empty
results inside generateDistractors, so every card yields a question. -/
def initTestQueue (numberOfChoices : Nat) (shuffleChoices : Bool)
    (optShuffle : List String → List String) (cardsToLoad allCards : List Card)
    (provider : Nat → List String) (rands : Nat → Nat → Nat) : List Question :=
  cardsToLoad.enum.map (fun p =>
    buildQuestion numberOfChoices shuffleChoices optShuffle p.2 allCards
      (provider p.1) (rands p.1))

/-! ## Session runs used by the termination claim -/

/-- n memorise-all steps, all rated know. -/
def memoriseKnowRun : FlashState → Nat → FlashState
  | s, 0 => s
  | s, n + 1 => memoriseKnowRun (handleNextCardMemorise s Rating.know) n

/-- A memorise-all session driven by an arbitrary rating sequence. -/
def memoriseRun : FlashState → List Rating → FlashState
  | s, [] => s
  | s, r :: rs => memoriseRun (handleNextCardMemorise s r) rs

/-- The termination property claimed for the memorise-all engine: for every
infinite rating sequence, some finite prefix empties the queue. -/
def memoriseTerminates (s : FlashState) : Prop :=
  ∀ f : Nat → Rating, ∃ n, (memoriseRun s ((List.range n).map f)).queue = []

/-- The inter-level state of a memorise-level session: either finished, or
about to start a level with the accumulated overall mastered ids, the
carry-over cards and the unseen pool. -/
inductive MemSessionState
  | finished
  | running (overallMasteredIds : List String) (unmastered : List Card)
      (remaining : List Card)
  deriving DecidableEq

/-- One full level of a memorise-level session in which the user answers
every queue entry correctly, composed from the source operations: build
the level queue (`startLevel`), run the answer handlers over it
(`processAnswer` via `memAnswerRun`), merge the level result
(`finishLevel`), and decide what comes next (`proceedToNextLevel`).  With
no incorrect answer the level-1 retry subphase is not entered. -/
def memLevelAllCorrectStep (wordsPerLevel : Nat)
    (shuffle : List Card → List Card) (setCards : List Card) :
    MemSessionState → MemSessionState
  | MemSessionState.finished => MemSessionState.finished
  | MemSessionState.running overall unmastered remaining =>
    let qr := startLevelQueue wordsPerLevel unmastered remaining
    let queue := shuffle qr.1
    let track := memAnswerRun ⟨[], [], MPhase.normal⟩
      (queue.map (fun c => (c.id, MAnswer.correct)))
    let overall' := finishLevelMerge overall track.levelMasteredIds
    match proceedToNextLevel setCards overall' track.levelMasteredIds qr.2 with
    | ProceedResult.finished => MemSessionState.finished
    | ProceedResult.nextLevel carry rem =>
      MemSessionState.running overall' carry rem

/-- k all-correct levels. -/
def memLevelAllCorrectRun (wordsPerLevel : Nat)
    (shuffle : List Card → List Card) (setCards : List Card) :
    MemSessionState → Nat → MemSessionState
  | s, 0 => s
  | s, k + 1 =>
    memLevelAllCorrectRun wordsPerLevel shuffle setCards
      (memLevelAllCorrectStep wordsPerLevel shuffle setCards s) k

/-- Left-to-right scan of a normal-phase event list deciding whether a card
ends up level-mastered: the first wrong event for the card blocks mastery
for the rest of the level, a correct event before any wrong one grants
it.  The Bool argument records whether the card is already in
answeredIncorrectlyIds. -/
def masteredOutcome (id : String) : Bool → List (String × MAnswer) → Bool
  | _, [] => false
  | alreadyWrong, e :: rest =>
    if e.1 = id then
      match e.2 with
      | MAnswer.correct =>
        if alreadyWrong then masteredOutcome id alreadyWrong rest else true
      | MAnswer.incorrect => masteredOutcome id true rest
      | MAnswer.dontKnow => masteredOutcome id true rest
    else masteredOutcome id alreadyWrong rest

/-! ## Concrete cards used in examples -/

/-- Example card A. -/
def cardA : Card := ⟨"A", "termA", "defA"⟩

/-- Example card B. -/
def cardB : Card := ⟨"B", "termB", "defB"⟩

/-- Example card C. -/
def cardC : Card := ⟨"C", "termC", "defC"⟩

/-- Ten example cards for the memorise-level example. -/
def exCards10 : List Card :=
  [⟨"1", "t1", "d1"⟩, ⟨"2", "t2", "d2"⟩, ⟨"3", "t3", "d3"⟩,
   ⟨"4", "t4", "d4"⟩, ⟨"5", "t5", "d5"⟩, ⟨"6", "t6", "d6"⟩,
   ⟨"7", "t7", "d7"⟩, ⟨"8", "t8", "d8"⟩, ⟨"9", "t9", "d9"⟩,
   ⟨"10", "t10", "d10"⟩]

/-- Two example cards that share one definition string (legal data: card ids
are unique, definitions need not be). -/
def cardDupX : Card := ⟨"x", "tx", "same"⟩

/-- Second card with the duplicated definition. -/
def cardDupY : Card := ⟨"y", "ty", "same"⟩

/-- An example study set holding cards A and B with no stored mastery. -/
def exSet : StudySetRec :=
  { id := "set1", title := "example", cards := [cardA, cardB],
    mastery := fun _ => none }

/-- An example stored profile holding the example set and default settings. -/
def exProfile : UserProfile :=
  { studySets := [exSet], settingsTestMode := some DEFAULT_TEST_SETTINGS }

/-- An example storage in which only the TestMode key is populated. -/
def exStorage : Storage :=
  fun k => if k = TEST_STORAGE_KEY then some exProfile else none

/-- An example Test question generated from card A. -/
def exQuestion : Question :=
  { id := "q-A", questionText := "termA", correctAnswer := "defA",
    options := ["defA", "d1", "d2", "d3"], originalCardId := "A",
    hint := "t..." }

/-- An example Test session state holding the single question on card A with
all streaks 0. -/
def exTestState : TestState :=
  { queue := [exQuestion], consecutiveCorrectMap := fun _ => 0,
    isFinished := false }

/-- A one-card active memorise-all session state. -/
def mem1State : FlashState :=
  ⟨[cardA], 0, FSessionState.active, 0, [], false⟩

/-- Termination measure for the Test engine under all-correct answers: the
total outstanding streak distance of the queued cards plus the queue
length. -/
def testMeasure (t : Nat) (s : TestState) : Nat :=
  (s.queue.map (fun q =>
    jsOrNat t 3 - s.consecutiveCorrectMap q.originalCardId)).sum +
    s.queue.length

/-! # Theorems -/

/-! ## Helper lemmas for the memorise-level answer handlers -/

/-- Once a card has been answered wrongly, the scan never grants mastery. -/
theorem masteredOutcome_true (id : String) (es : List (String × MAnswer)) :
    masteredOutcome id true es = false := by
  induction es with
  | nil => rfl
  | cons e rest ih =>
    cases e with
    | mk c a =>
      by_cases hc : c = id
      · cases a <;> simp [masteredOutcome, hc, ih]
      · simp [masteredOutcome, hc, ih]

/-- The answer handlers never change the phase. -/
theorem memAnswerStep_phase (st : MemLevelTrack) (e : String × MAnswer) :
    (memAnswerStep st e).phase = st.phase := by
  cases e with
  | mk c a =>
    cases a <;>
      simp only [memAnswerStep, processAnswer, handleDontKnow] <;>
      split <;> (try split) <;> (try split) <;> rfl

/-- In the retry phase, a single answer event changes nothing. -/
theorem memAnswerStep_retry (m w : List String) (e : String × MAnswer) :
    memAnswerStep ⟨m, w, MPhase.retry⟩ e = ⟨m, w, MPhase.retry⟩ := by
  cases e with
  | mk c a => cases a <;> simp [memAnswerStep, processAnswer, handleDontKnow]

/-- Fold invariant: membership in levelMasteredIds after a normal-phase run
equals prior membership or the scan outcome started from the prior
answeredIncorrectlyIds membership. -/
theorem mem_levelMastered_memAnswerRun (es : List (String × MAnswer))
    (st : MemLevelTrack) (hph : st.phase = MPhase.normal) (id : String) :
    (id ∈ (memAnswerRun st es).levelMasteredIds ↔
      id ∈ st.levelMasteredIds ∨
        masteredOutcome id (decide (id ∈ st.answeredIncorrectlyIds)) es = true) := by
  induction es generalizing st with
  | nil => simp [memAnswerRun, masteredOutcome]
  | cons e rest ih =>
    obtain ⟨m, w, ph⟩ := st
    subst hph
    obtain ⟨c, a⟩ := e
    have hrun : memAnswerRun ⟨m, w, MPhase.normal⟩ ((c, a) :: rest) =
        memAnswerRun (memAnswerStep ⟨m, w, MPhase.normal⟩ (c, a)) rest := rfl
    by_cases hc : c = id
    · subst hc
      cases a with
      | correct =>
        by_cases hw : c ∈ w
        · have hstep : memAnswerStep ⟨m, w, MPhase.normal⟩ (c, MAnswer.correct) =
              ⟨m, w, MPhase.normal⟩ := by
            simp [memAnswerStep, processAnswer, hw]
          rw [hrun, hstep, ih ⟨m, w, MPhase.normal⟩ rfl]
          simp [masteredOutcome, hw, masteredOutcome_true]
        · have hstep : memAnswerStep ⟨m, w, MPhase.normal⟩ (c, MAnswer.correct) =
              ⟨m.insert c, w, MPhase.normal⟩ := by
            simp [memAnswerStep, processAnswer, hw]
          rw [hrun, hstep, ih ⟨m.insert c, w, MPhase.normal⟩ rfl]
          simp [masteredOutcome, hw, List.mem_insert_iff]
      | incorrect =>
        have hstep : memAnswerStep ⟨m, w, MPhase.normal⟩ (c, MAnswer.incorrect) =
            ⟨m, w.insert c, MPhase.normal⟩ := by
          simp [memAnswerStep, processAnswer]
        rw [hrun, hstep, ih ⟨m, w.insert c, MPhase.normal⟩ rfl]
        simp [masteredOutcome, List.mem_insert_iff]
      | dontKnow =>
        have hstep : memAnswerStep ⟨m, w, MPhase.normal⟩ (c, MAnswer.dontKnow) =
            ⟨m, w.insert c, MPhase.normal⟩ := by
          simp [memAnswerStep, handleDontKnow]
        rw [hrun, hstep, ih ⟨m, w.insert c, MPhase.normal⟩ rfl]
        simp [masteredOutcome, List.mem_insert_iff]
    · have hne : ¬ id = c := fun h => hc h.symm
      have hskip : ∀ b, masteredOutcome id b ((c, a) :: rest) =
          masteredOutcome id b rest := by
        intro b; cases a <;> simp [masteredOutcome, hc]
      cases a with
      | correct =>
        by_cases hw : c ∈ w
        · have hstep : memAnswerStep ⟨m, w, MPhase.normal⟩ (c, MAnswer.correct) =
              ⟨m, w, MPhase.normal⟩ := by
            simp [memAnswerStep, processAnswer, hw]
          rw [hrun, hstep, ih ⟨m, w, MPhase.normal⟩ rfl, hskip]
        · have hstep : memAnswerStep ⟨m, w, MPhase.normal⟩ (c, MAnswer.correct) =
              ⟨m.insert c, w, MPhase.normal⟩ := by
            simp [memAnswerStep, processAnswer, hw]
          rw [hrun, hstep, ih ⟨m.insert c, w, MPhase.normal⟩ rfl, hskip]
          simp [List.mem_insert_iff, hne]
      | incorrect =>
        have hstep : memAnswerStep ⟨m, w, MPhase.normal⟩ (c, MAnswer.incorrect) =
            ⟨m, w.insert c, MPhase.normal⟩ := by
          simp [memAnswerStep, processAnswer]
        rw [hrun, hstep, ih ⟨m, w.insert c, MPhase.normal⟩ rfl, hskip]
        have hdec : decide (id ∈ w.insert c) = decide (id ∈ w) := by
          simp [List.mem_insert_iff, hne]
        rw [hdec]
      | dontKnow =>
        have hstep : memAnswerStep ⟨m, w, MPhase.normal⟩ (c, MAnswer.dontKnow) =
            ⟨m, w.insert c, MPhase.normal⟩ := by
          simp [memAnswerStep, handleDontKnow]
        rw [hrun, hstep, ih ⟨m, w.insert c, MPhase.normal⟩ rfl, hskip]
        have hdec : decide (id ∈ w.insert c) = decide (id ∈ w) := by
          simp [List.mem_insert_iff, hne]
        rw [hdec]

/-- The scan grants mastery exactly when the event list splits into a prefix
with no wrong event for the card, followed by a correct answer for it. -/
theorem masteredOutcome_false_iff (id : String) (es : List (String × MAnswer)) :
    masteredOutcome id false es = true ↔
      ∃ es₁ es₂, es = es₁ ++ (id, MAnswer.correct) :: es₂ ∧
        ∀ e ∈ es₁, ¬ wrongFor id e := by
  induction es with
  | nil => simp [masteredOutcome]
  | cons e rest ih =>
    obtain ⟨c, a⟩ := e
    by_cases hc : c = id
    · subst hc
      cases a with
      | correct =>
        refine iff_of_true (by simp [masteredOutcome]) ⟨[], rest, rfl, by simp⟩
      | incorrect =>
        refine iff_of_false (by simp [masteredOutcome, masteredOutcome_true]) ?_
        rintro ⟨es₁, es₂, heq, hall⟩
        cases es₁ with
        | nil => simp at heq
        | cons e' es₁' =>
          rw [List.cons_append] at heq
          have he' : e' = (c, MAnswer.incorrect) := (List.cons_eq_cons.mp heq).1.symm
          exact hall e' (by simp) (by rw [he']; exact ⟨rfl, by simp⟩)
      | dontKnow =>
        refine iff_of_false (by simp [masteredOutcome, masteredOutcome_true]) ?_
        rintro ⟨es₁, es₂, heq, hall⟩
        cases es₁ with
        | nil => simp at heq
        | cons e' es₁' =>
          rw [List.cons_append] at heq
          have he' : e' = (c, MAnswer.dontKnow) := (List.cons_eq_cons.mp heq).1.symm
          exact hall e' (by simp) (by rw [he']; exact ⟨rfl, by simp⟩)
    · rw [show masteredOutcome id false ((c, a) :: rest) =
          masteredOutcome id false rest by simp [masteredOutcome, hc], ih]
      constructor
      · rintro ⟨es₁, es₂, heq, hall⟩
        refine ⟨(c, a) :: es₁, es₂, by rw [List.cons_append, heq], ?_⟩
        intro e he
        rcases List.mem_cons.mp he with he | he
        · rw [he]; exact fun hw => hc hw.1
        · exact hall e he
      · rintro ⟨es₁, es₂, heq, hall⟩
        cases es₁ with
        | nil =>
          exfalso
          rw [List.nil_append] at heq
          exact hc (congrArg Prod.fst (List.cons_eq_cons.mp heq).1)
        | cons e' es₁' =>
          rw [List.cons_append] at heq
          obtain ⟨he', hrest⟩ := List.cons_eq_cons.mp heq
          exact ⟨es₁', es₂, hrest, fun e he => hall e (List.mem_cons_of_mem e' he)⟩

/-- A whole retry-phase run changes nothing. -/
theorem memAnswerRun_retry (m w : List String) (es : List (String × MAnswer)) :
    memAnswerRun ⟨m, w, MPhase.retry⟩ es = ⟨m, w, MPhase.retry⟩ := by
  induction es with
  | nil => rfl
  | cons e rest ih =>
    show memAnswerRun (memAnswerStep ⟨m, w, MPhase.retry⟩ e) rest = _
    rw [memAnswerStep_retry]
    exact ih

/-- C6: in the Memorise-Level engine, a card id ends a level in
levelMasteredIds exactly when its answer events in the normal phase contain
a correct answer for it preceded by no incorrect answer and no explicit
dont-know skip of it; and a run of events in the level-1 retry subphase
changes neither levelMasteredIds nor answeredIncorrectlyIds. -/
theorem memorise_level_mastered_iff :
    (∀ (es : List (String × MAnswer)) (id : String),
      id ∈ (memAnswerRun ⟨[], [], MPhase.normal⟩ es).levelMasteredIds ↔
        ∃ es₁ es₂, es = es₁ ++ (id, MAnswer.correct) :: es₂ ∧
          ∀ e ∈ es₁, ¬ wrongFor id e) ∧
    (∀ (m w : List String) (es : List (String × MAnswer)),
      memAnswerRun ⟨m, w, MPhase.retry⟩ es = ⟨m, w, MPhase.retry⟩) := by
  constructor
  · intro es id
    rw [mem_levelMastered_memAnswerRun es ⟨[], [], MPhase.normal⟩ rfl id]
    rw [show decide (id ∈ ([] : List String)) = false by simp]
    rw [masteredOutcome_false_iff]
    simp
  · exact memAnswerRun_retry

/-! ## Flashcards memorise-all queue policy -/

/-- C4: in Flashcards memorise-all mode, rating the head card know removes it
and increments the session mastered count, rating it dont_know removes it
and re-inserts it at position min(queueLength, 3) of the post-removal
queue, the session finishes exactly when the queue becomes empty, and for
queue [A,B,C] a dont_know on A yields [B,C,A] while know yields [B,C]. -/
theorem flashcards_memorise_step (card : Card) (rest : List Card)
    (idx cnt : Nat) (mids : List String) (flip : Bool) :
    (handleNextCardMemorise
        ⟨card :: rest, idx, FSessionState.active, cnt, mids, flip⟩
        Rating.know).queue = rest ∧
    (handleNextCardMemorise
        ⟨card :: rest, idx, FSessionState.active, cnt, mids, flip⟩
        Rating.know).sessionMasteredCount = cnt + 1 ∧
    ((handleNextCardMemorise
        ⟨card :: rest, idx, FSessionState.active, cnt, mids, flip⟩
        Rating.know).sessionState = FSessionState.finished ↔ rest = []) ∧
    (handleNextCardMemorise
        ⟨card :: rest, idx, FSessionState.active, cnt, mids, flip⟩
        Rating.dont_know).queue = rest.insertIdx (min rest.length 3) card ∧
    ((handleNextCardMemorise
        ⟨card :: rest, idx, FSessionState.active, cnt, mids, flip⟩
        Rating.dont_know).sessionState = FSessionState.finished ↔
      (handleNextCardMemorise
        ⟨card :: rest, idx, FSessionState.active, cnt, mids, flip⟩
        Rating.dont_know).queue = []) ∧
    (handleNextCardMemorise
        ⟨[cardA, cardB, cardC], 0, FSessionState.active, 0, [], false⟩
        Rating.dont_know).queue = [cardB, cardC, cardA] ∧
    (handleNextCardMemorise
        ⟨[cardA, cardB, cardC], 0, FSessionState.active, 0, [], false⟩
        Rating.know).queue = [cardB, cardC] := by
  have hins : (rest.insertIdx (min rest.length 3) card).length = rest.length + 1 :=
    List.length_insertIdx _ _ (min_le_left _ _)
  have hne : rest.insertIdx (min rest.length 3) card ≠ [] := by
    intro h
    rw [h] at hins
    simp at hins
  refine ⟨by simp [handleNextCardMemorise], by simp [handleNextCardMemorise], ?_, ?_, ?_, ?_, ?_⟩
  · cases rest <;> simp [handleNextCardMemorise]
  · simp [handleNextCardMemorise]
  · simp [handleNextCardMemorise, hne, List.isEmpty_iff]
  · decide
  · decide

/-! ## Flashcard rating mastery updates -/

/-- C5: for a flashcard rating, the persisted mastery of the rated card
becomes min(100, m+20) on know and max(0, m-20) on dont_know, where m is
the prior mastery (0 when absent, in range [0,100]); every written mastery
value is clamped into [0,100]; and rating in standard mode leaves the
queue order untouched. -/
theorem flashcards_rating_mastery
    (set : StudySetRec) (cardId : String) (now : Nat) (m newM : Int)
    (hm0 : 0 ≤ m) (hm1 : m ≤ 100) :
    (((handleUpdateMastery set cardId (handleRatingMastery m Rating.know) now).mastery
        cardId).map (fun r => r.mastery) = some (min 100 (m + 20))) ∧
    (((handleUpdateMastery set cardId (handleRatingMastery m Rating.dont_know) now).mastery
        cardId).map (fun r => r.mastery) = some (max 0 (m - 20))) ∧
    (((handleUpdateMastery set cardId newM now).mastery cardId).map
        (fun r => r.mastery) = some (min 100 (max 0 newM)) ∧
      0 ≤ min 100 (max 0 newM) ∧ min 100 (max 0 newM) ≤ 100) ∧
    (∀ (mode : FMode) (s : FlashState)
        (mastery : String → Option CardMasteryRecord) (rating : Rating)
        (card : Card), currentCard mode s = some card →
      (handleRating mode s mastery rating).2 =
        some (card.id,
          handleRatingMastery (((mastery card.id).map (fun r => r.mastery)).getD 0)
            rating)) ∧
    (∀ (s : FlashState) (mastery : String → Option CardMasteryRecord)
        (rating : Rating),
      (handleRating FMode.standard s mastery rating).1.queue = s.queue) := by
  refine ⟨?_, ?_, ?_, ?_, ?_⟩
  · simp [handleUpdateMastery, handleRatingMastery]
    omega
  · simp [handleUpdateMastery, handleRatingMastery]
    omega
  · refine ⟨?_, ?_, ?_⟩
    · simp [handleUpdateMastery]
    · simp only [min_def, max_def]; split_ifs <;> omega
    · simp only [min_def, max_def]; split_ifs <;> omega
  · intro mode s mastery rating card hcc
    simp [handleRating, hcc]
  · intro s mastery rating
    unfold handleRating
    cases hcc : currentCard FMode.standard s with
    | none => rfl
    | some card =>
      simp only [handleNextCardStandard]
      split <;> rfl

/-- Witness for C5 at a concrete input: prior mastery 50, rated know, the
persisted value is 70. -/
theorem flashcards_rating_mastery_witness :
    ((handleUpdateMastery exSet "A" (handleRatingMastery 50 Rating.know) 0).mastery
        "A").map (fun r => r.mastery) = some (min 100 (50 + 20)) :=
  (flashcards_rating_mastery exSet "A" 0 50 7 (by decide) (by decide)).1

/-! ## Storage-key isolation of the Test engine -/

/-- C10: the Test engine reads its settings and writes its auto-save updates
under the v3 storage key, while the application loads and persists the
profile under the distinct v5 key; hence a Test-engine auto-save never
changes the profile document the application reads, the profile the Test
engine observes is exactly the v3 entry, and an application persist never
changes what the Test engine reads. -/
theorem test_engine_storage_key_isolation :
    TEST_STORAGE_KEY ≠ APP_STORAGE_KEY ∧
    (∀ (settings : TestSettings) (st : Storage) (setId cardId : String)
        (isCorrect : Bool) (now : Nat),
      appLoadProfile (saveProgress settings st setId cardId isCorrect now) =
        appLoadProfile st) ∧
    (∀ st : Storage, testLoadStoredProfile st = st TEST_STORAGE_KEY) ∧
    (∀ (st : Storage) (p : UserProfile),
      testLoadStoredProfile (appPersistProfile st p) = testLoadStoredProfile st) := by
  refine ⟨by decide, ?_, fun st => rfl, ?_⟩
  · intro settings st setId cardId isCorrect now
    unfold saveProgress
    split
    · rfl
    · cases h : st TEST_STORAGE_KEY with
      | none => rfl
      | some p =>
        show (setItem st TEST_STORAGE_KEY _) APP_STORAGE_KEY = st APP_STORAGE_KEY
        unfold setItem
        rw [if_neg (by decide)]
  · intro st p
    show (setItem st APP_STORAGE_KEY p) TEST_STORAGE_KEY = st TEST_STORAGE_KEY
    unfold setItem
    rw [if_neg (by decide)]

/-! ## Test engine: answering and the mastery formula -/

/-- C3: answering a Test question increments the streak of the answered card
on a correct answer and resets it to 0 on an incorrect one; with auto-save
enabled, the persisted record of the card is rewritten with the updated
consecutive-correct counter n and mastery min(100, round(100 * n /
masteryThreshold)) (the counter is recomputed from the stored record,
which the session seeded the in-memory map from); with threshold 3 a
streak of 2 yields mastery 67 and a streak of 3 yields mastery 100. -/
theorem test_answer_mastery
    (s : TestState) (q : Question) (rest : List Question) (option : String)
    (hq : s.queue = q :: rest)
    (set : StudySetRec) (cardId setId : String) (isCorrect : Bool)
    (threshold now : Nat)
    (settings : TestSettings) (st : Storage) (p : UserProfile)
    (i : Nat) (cs : StudySetRec)
    (hsave : settings.autoSave = true)
    (hst : st TEST_STORAGE_KEY = some p)
    (hidx : p.studySets.findIdx? (fun s0 => s0.id = setId) = some i)
    (hget : p.studySets.get? i = some cs) :
    ((handleAnswer s option).consecutiveCorrectMap q.originalCardId =
      if option = q.correctAnswer
      then s.consecutiveCorrectMap q.originalCardId + 1 else 0) ∧
    ((saveProgressSet set cardId isCorrect threshold now).mastery cardId =
      some { mastery :=
               newMasteryPct
                 (if isCorrect
                  then ((set.mastery cardId).getD defaultRecord).consecutiveCorrect + 1
                  else 0) threshold
             lastReviewed := now
             consecutiveCorrect :=
               (if isCorrect
                then ((set.mastery cardId).getD defaultRecord).consecutiveCorrect + 1
                else 0)
             attempts := ((set.mastery cardId).getD defaultRecord).attempts + 1 }) ∧
    ((saveProgress settings st setId cardId isCorrect now) TEST_STORAGE_KEY =
      some { p with studySets := p.studySets.set i (saveProgressSet cs cardId isCorrect settings.masteryThreshold now) }) ∧
    (newMasteryPct 2 3 = 67 ∧ newMasteryPct 3 3 = 100) := by
  refine ⟨?_, ?_, ?_, ?_, ?_⟩
  · obtain ⟨queue, cmap, fin⟩ := s
    simp only at hq
    subst hq
    by_cases h : option = q.correctAnswer <;> simp [handleAnswer, h]
  · cases isCorrect <;> simp [saveProgressSet]
  · unfold saveProgress saveProgressProfile setItem
    rw [List.get?_eq_getElem?] at hget
    simp [hsave, hst, hidx, hget]
  · norm_num [newMasteryPct, jsRound, jsOrNat]
  · norm_num [newMasteryPct, jsRound, jsOrNat]

/-- Witness for C3 at a concrete input: answering the single question on
card A correctly raises its in-memory streak to 1, and the auto-saved v3
profile document is rewritten accordingly. -/
theorem test_answer_mastery_witness :
    (handleAnswer exTestState "defA").consecutiveCorrectMap "A" =
      (if "defA" = "defA" then exTestState.consecutiveCorrectMap "A" + 1 else 0) ∧
    ((saveProgress DEFAULT_TEST_SETTINGS exStorage "set1" "A" true 5)
        TEST_STORAGE_KEY =
      some { exProfile with studySets := exProfile.studySets.set 0 (saveProgressSet exSet "A" true 3 5) }) :=
  ⟨(test_answer_mastery exTestState exQuestion [] "defA" rfl exSet "A" "set1"
      true 3 5 DEFAULT_TEST_SETTINGS exStorage exProfile 0 exSet rfl rfl
      (by simp [exProfile, exSet, List.findIdx?]) rfl).1,
   (test_answer_mastery exTestState exQuestion [] "defA" rfl exSet "A" "set1"
      true 3 5 DEFAULT_TEST_SETTINGS exStorage exProfile 0 exSet rfl rfl
      (by simp [exProfile, exSet, List.findIdx?]) rfl).2.2.1⟩

/-! ## Test engine: queue re-insertion policy -/

/-- One interaction on a nonempty queue: explicit form of the resulting
queue. -/
theorem testStep_queue_eq (t : Nat) (q : Question) (rest : List Question)
    (cmap : String → Nat) (fin : Bool) (o : String) :
    (testStep t ⟨q :: rest, cmap, fin⟩ o).queue =
      if o = q.correctAnswer then
        if cmap q.originalCardId + 1 < jsOrNat t 3 then
          rest ++ [{ q with id := "retry-" ++ q.id }]
        else rest
      else rest.insertIdx (min rest.length 2)
        { q with id := "retry-wrong-" ++ q.id } := by
  by_cases h : o = q.correctAnswer <;>
    simp [testStep, handleAnswer, handleNext, h]

/-- One interaction on a nonempty queue: explicit form of the resulting
streak map. -/
theorem testStep_cmap_eq (t : Nat) (q : Question) (rest : List Question)
    (cmap : String → Nat) (fin : Bool) (o : String) :
    (testStep t ⟨q :: rest, cmap, fin⟩ o).consecutiveCorrectMap =
      fun k => if k = q.originalCardId then
        (if o = q.correctAnswer then cmap q.originalCardId + 1 else 0)
      else cmap k := by
  by_cases h : o = q.correctAnswer <;>
    simp [testStep, handleAnswer, handleNext, h]

/-- A card absent from the queue stays absent after one interaction: the
only entry an interaction can add wraps the card of the head question. -/
theorem not_mem_cardIds_testStep (t : Nat) (s : TestState) (o : String)
    (c : String) (h : c ∉ s.queue.map (fun q0 => q0.originalCardId)) :
    c ∉ (testStep t s o).queue.map (fun q0 => q0.originalCardId) := by
  obtain ⟨queue, cmap, fin⟩ := s
  cases queue with
  | nil => simp [testStep, handleAnswer, handleNext]
  | cons q rest =>
    rw [testStep_queue_eq]
    simp only [List.map_cons, List.mem_cons, not_or] at h
    obtain ⟨hcq, hrest⟩ := h
    split
    · split
      · rw [List.map_append]
        intro hx
        rcases List.mem_append.mp hx with hx | hx
        · exact hrest hx
        · simp at hx
          exact hcq hx
      · exact hrest
    · rw [List.mem_map]
      rintro ⟨a, ha, hfa⟩
      rcases (List.mem_insertIdx (min_le_left _ _)).mp ha with rfl | ha'
      · exact hcq hfa.symm
      · exact hrest (List.mem_map.mpr ⟨a, ha', hfa⟩)

/-- A card absent from the queue stays absent for the rest of the session. -/
theorem not_mem_cardIds_testRun (t : Nat) (opts : List String) (s : TestState)
    (c : String) (h : c ∉ s.queue.map (fun q0 => q0.originalCardId)) :
    c ∉ (testRun t s opts).queue.map (fun q0 => q0.originalCardId) := by
  induction opts generalizing s with
  | nil => exact h
  | cons o os ih => exact ih (testStep t s o) (not_mem_cardIds_testStep t s o c h)

/-- C2: advancing after an answer removes the head entry; a correct answer
whose updated streak is still below masteryThreshold appends a new entry
for the card at the end; an incorrect answer inserts a new entry at
position min(queueLength, 2) of the post-removal queue; and a card whose
streak reaches masteryThreshold is never re-queued for the rest of the
session. -/
theorem test_requeue_policy (threshold : Nat) (hthr : 0 < threshold)
    (s : TestState) (q : Question) (rest : List Question) (option : String)
    (hq : s.queue = q :: rest)
    (hnodup : (s.queue.map (fun q0 => q0.originalCardId)).Nodup) :
    (option = q.correctAnswer →
        s.consecutiveCorrectMap q.originalCardId + 1 < threshold →
        (testStep threshold s option).queue =
          rest ++ [{ q with id := "retry-" ++ q.id }]) ∧
    (option = q.correctAnswer →
        threshold ≤ s.consecutiveCorrectMap q.originalCardId + 1 →
        (testStep threshold s option).queue = rest) ∧
    (option ≠ q.correctAnswer →
        (testStep threshold s option).queue =
          rest.insertIdx (min rest.length 2)
            { q with id := "retry-wrong-" ++ q.id }) ∧
    (option = q.correctAnswer →
        threshold ≤ s.consecutiveCorrectMap q.originalCardId + 1 →
        ∀ opts : List String,
          q.originalCardId ∉
            ((testRun threshold (testStep threshold s option) opts).queue.map
              (fun q0 => q0.originalCardId))) := by
  have hjs : jsOrNat threshold 3 = threshold := by
    unfold jsOrNat
    rw [if_neg (by omega)]
  obtain ⟨queue, cmap, fin⟩ := s
  simp only at hq hnodup ⊢
  subst hq
  refine ⟨?_, ?_, ?_, ?_⟩
  · intro ho hlt
    rw [testStep_queue_eq, if_pos ho, hjs, if_pos hlt]
  · intro ho hge
    rw [testStep_queue_eq, if_pos ho, hjs, if_neg (by omega)]
  · intro ho
    rw [testStep_queue_eq, if_neg ho]
  · intro ho hge opts
    have hstep : (testStep threshold ⟨q :: rest, cmap, fin⟩ option).queue = rest := by
      rw [testStep_queue_eq, if_pos ho, hjs, if_neg (by omega)]
    refine not_mem_cardIds_testRun threshold opts _ _ ?_
    rw [hstep]
    simp only [List.map_cons, List.nodup_cons] at hnodup
    exact hnodup.1

/-- Witness for C2 at a concrete input: with masteryThreshold 1, answering
the single question on card A correctly masters it and the resulting queue
is empty. -/
theorem test_requeue_policy_witness :
    (testStep 1 exTestState "defA").queue = [] :=
  (test_requeue_policy 1 (by decide) exTestState exQuestion [] "defA" rfl
      (by decide)).2.1 rfl (by decide)

/-! ## Local fallback distractor sampler -/

/-- Membership after a JavaScript-set add. -/
theorem mem_setAdd {x y : String} {l : List String} :
    x ∈ setAdd l y ↔ x ∈ l ∨ x = y := by
  unfold setAdd
  split
  · rename_i hy
    constructor
    · exact Or.inl
    · rintro (h | rfl)
      · exact h
      · exact hy
  · simp

/-- A set add preserves duplicate-freeness. -/
theorem setAdd_nodup {l : List String} (h : l.Nodup) (y : String) :
    (setAdd l y).Nodup := by
  unfold setAdd
  split
  · exact h
  · rename_i hy
    simpa [List.nodup_append] using ⟨h, hy⟩

/-- A set add grows the list by at most one element. -/
theorem setAdd_length_le (l : List String) (y : String) :
    (setAdd l y).length ≤ l.length + 1 := by
  unfold setAdd
  split <;> simp

/-- Invariants of the sampling loop: duplicate-freeness, the count bound, and
that every collected option was already collected or is the definition of
a remaining candidate card. -/
theorem sampleDistractorsLoop_spec (count : Nat) (rands : Nat → Nat) :
    ∀ (fuel k : Nat) (options : List String) (distractors : List Card),
      options.Nodup → options.length ≤ count →
      ((sampleDistractorsLoop count rands fuel k options distractors).Nodup ∧
       (sampleDistractorsLoop count rands fuel k options distractors).length ≤ count ∧
       ∀ x ∈ sampleDistractorsLoop count rands fuel k options distractors,
         x ∈ options ∨ ∃ c ∈ distractors, x = c.definition) := by
  intro fuel
  induction fuel with
  | zero =>
    intro k options distractors hnd hlen
    exact ⟨hnd, hlen, fun x hx => Or.inl hx⟩
  | succ fuel ih =>
    intro k options distractors hnd hlen
    cases distractors with
    | nil => exact ⟨hnd, hlen, fun x hx => Or.inl hx⟩
    | cons d ds =>
      show _ ∧ _ ∧ _
      rw [sampleDistractorsLoop]
      split
      · rename_i hlt
        set dl := d :: ds with hdl
        set i := rands k % dl.length with hi
        have hilt : i < dl.length := by
          rw [hi]
          exact Nat.mod_lt _ (by simp [hdl])
        have hpicked : dl.getD i d ∈ dl := by
          rw [List.getD_eq_getElem _ _ hilt]
          exact List.getElem_mem hilt
        have hrec := ih (k + 1) (setAdd options (dl.getD i d).definition)
          (dl.eraseIdx i) (setAdd_nodup hnd _)
          (le_trans (setAdd_length_le _ _) (by omega))
        refine ⟨hrec.1, hrec.2.1, fun x hx => ?_⟩
        rcases hrec.2.2 x hx with hx' | ⟨c, hc, hcx⟩
        · rcases mem_setAdd.mp hx' with hx'' | rfl
          · exact Or.inl hx''
          · exact Or.inr ⟨dl.getD i d, hpicked, rfl⟩
        · exact Or.inr ⟨c, (dl.eraseIdx_sublist i).mem hc, hcx⟩
      · exact ⟨hnd, hlen, fun x hx => Or.inl hx⟩

/-- Invariants of the generic-filler loop. -/
theorem addGenericLoop_spec (count : Nat) :
    ∀ (gens options : List String),
      options.Nodup → options.length ≤ count →
      ((addGenericLoop count options gens).Nodup ∧
       (addGenericLoop count options gens).length ≤ count ∧
       ∀ x ∈ addGenericLoop count options gens, x ∈ options ∨ x ∈ gens) := by
  intro gens
  induction gens with
  | nil =>
    intro options hnd hlen
    exact ⟨hnd, hlen, fun x hx => Or.inl hx⟩
  | cons g rest ih =>
    intro options hnd hlen
    show _ ∧ _ ∧ _
    rw [addGenericLoop]
    split
    · rename_i hlt
      have hrec := ih (setAdd options g) (setAdd_nodup hnd g)
        (le_trans (setAdd_length_le _ _) (by omega))
      refine ⟨hrec.1, hrec.2.1, fun x hx => ?_⟩
      rcases hrec.2.2 x hx with hx' | hx'
      · rcases mem_setAdd.mp hx' with hx'' | rfl
        · exact Or.inl hx''
        · exact Or.inr (List.mem_cons_self _ _)
      · exact Or.inr (List.mem_cons_of_mem _ hx')
    · exact ⟨hnd, hlen, fun x hx => Or.inl hx⟩

/-- C8 (amended): the local fallback sampler returns at most count pairwise
distinct strings, each of which is another (different-id) card's
definition or a generic filler; provided no other card shares the correct
card's definition string and that string is not itself one of the generic
fillers, the result never contains the correct card's definition; and for
a 2-card set with count 3 the result is the single real distractor
followed by 2 generic fillers, whatever the random stream. -/
theorem fallback_distractors_spec (correctCard : Card) (allCards : List Card)
    (count : Nat) (rands : Nat → Nat)
    (hdef : ∀ c ∈ allCards, c.id ≠ correctCard.id →
      c.definition ≠ correctCard.definition)
    (hgen : correctCard.definition ∉ genericDistractors) :
    (getFallbackDistractors correctCard allCards count rands).Nodup ∧
    (getFallbackDistractors correctCard allCards count rands).length ≤ count ∧
    (∀ x ∈ getFallbackDistractors correctCard allCards count rands,
      (∃ c ∈ allCards, c.id ≠ correctCard.id ∧ x = c.definition) ∨
        x ∈ genericDistractors) ∧
    correctCard.definition ∉ getFallbackDistractors correctCard allCards count rands ∧
    (∀ rands2 : Nat → Nat,
      getFallbackDistractors cardA [cardA, cardB] 3 rands2 =
        ["defB", "Incorrect Answer A", "Incorrect Answer B"]) := by
  have hs := sampleDistractorsLoop_spec count rands
    (allCards.filter (fun c => c.id ≠ correctCard.id)).length 0 []
    (allCards.filter (fun c => c.id ≠ correctCard.id)) (by simp) (by simp)
  have hg := addGenericLoop_spec count genericDistractors _ hs.1 hs.2.1
  have hres : getFallbackDistractors correctCard allCards count rands =
      addGenericLoop count
        (sampleDistractorsLoop count rands
          (allCards.filter (fun c => c.id ≠ correctCard.id)).length 0 []
          (allCards.filter (fun c => c.id ≠ correctCard.id)))
        genericDistractors := rfl
  have hmem : ∀ x ∈ getFallbackDistractors correctCard allCards count rands,
      (∃ c ∈ allCards, c.id ≠ correctCard.id ∧ x = c.definition) ∨
        x ∈ genericDistractors := by
    intro x hx
    rw [hres] at hx
    rcases hg.2.2 x hx with hx' | hx'
    · rcases hs.2.2 x hx' with hx'' | ⟨c, hc, hcx⟩
      · simp at hx''
      · rcases List.mem_filter.mp hc with ⟨hcall, hcid⟩
        exact Or.inl ⟨c, hcall, by simpa using hcid, hcx⟩
    · exact Or.inr hx'
  refine ⟨by rw [hres]; exact hg.1, by rw [hres]; exact hg.2.1, hmem, ?_, ?_⟩
  · intro hx
    rcases hmem _ hx with ⟨c, hcall, hcid, hcx⟩ | hx'
    · exact hdef c hcall hcid hcx.symm
    · exact hgen hx'
  · intro rands2
    simp [getFallbackDistractors, sampleDistractorsLoop, addGenericLoop, setAdd,
      Nat.mod_one, cardA, cardB, genericDistractors]

/-- Witness for C8 (amended) at a concrete input: cards A and B with distinct
definitions, count 3 and the constant-zero random stream. -/
theorem fallback_distractors_spec_witness :
    getFallbackDistractors cardA [cardA, cardB] 3 (fun _ => 0) =
      ["defB", "Incorrect Answer A", "Incorrect Answer B"] :=
  (fallback_distractors_spec cardA [cardA, cardB] 3 (fun _ => 0)
    (by decide) (by decide)).2.2.2.2 (fun _ => 0)

/-- Counterexample to C8 as stated: the sampler filters candidate cards by
id, not by definition string, so when another card shares the correct
card's definition, the result contains the correct card's own
definition. -/
theorem fallback_contains_own_definition :
    cardDupX.definition ∈
      getFallbackDistractors cardDupX [cardDupX, cardDupY] 3 (fun _ => 0) := by
  decide

/-! ## Test session initialisation and the provider-fallback policy -/

/-- The fallback sampler never returns more than count strings. -/
theorem getFallbackDistractors_length_le (correctCard : Card)
    (allCards : List Card) (count : Nat) (rands : Nat → Nat) :
    (getFallbackDistractors correctCard allCards count rands).length ≤ count := by
  have hs := sampleDistractorsLoop_spec count rands
    (allCards.filter (fun c => c.id ≠ correctCard.id)).length 0 []
    (allCards.filter (fun c => c.id ≠ correctCard.id)) (by simp) (by simp)
  have hg := addGenericLoop_spec count genericDistractors _ hs.1 hs.2.1
  exact hg.2.1

/-- C9 (amended): a question's options are the correct definition together
with the provider result when that result is nonempty, and with the local
fallback sample only when the provider result is empty (a partial nonempty
result is used as is, so such a question offers 1 + its size options,
possibly fewer than numberOfChoices); when the fallback is used the option
count is at most numberOfChoices; and a question is built for every loaded
card, so no provider outcome aborts session construction. -/
theorem test_init_distractor_policy
    (n : Nat) (sh : Bool) (osh : List String → List String)
    (hsh : ∀ l, (osh l).Perm l) (card : Card) (allCards : List Card)
    (provided : List String) (rands : Nat → Nat) :
    ((buildQuestion n sh osh card allCards provided rands).options.Perm
      (card.definition ::
        (if provided.length > 0 then provided
         else getFallbackDistractors card allCards (jsOrNat n 4 - 1) rands))) ∧
    (provided ≠ [] →
      (buildQuestion n sh osh card allCards provided rands).options.length =
        1 + provided.length) ∧
    (provided = [] →
      (buildQuestion n sh osh card allCards provided rands).options.length ≤
        jsOrNat n 4) ∧
    (∀ (cardsToLoad : List Card) (provider : Nat → List String)
        (rands2 : Nat → Nat → Nat),
      (initTestQueue n sh osh cardsToLoad allCards provider rands2).length =
        cardsToLoad.length) := by
  have hperm : (buildQuestion n sh osh card allCards provided rands).options.Perm
      (card.definition ::
        (if provided.length > 0 then provided
         else getFallbackDistractors card allCards (jsOrNat n 4 - 1) rands)) := by
    unfold buildQuestion
    cases sh
    · exact List.Perm.refl _
    · exact hsh _
  have hj : 1 ≤ jsOrNat n 4 := by
    unfold jsOrNat
    split <;> omega
  refine ⟨hperm, ?_, ?_, ?_⟩
  · intro hp
    have hp' : 0 < provided.length := List.length_pos.mpr hp
    rw [hperm.length_eq, if_pos hp', List.length_cons]
    omega
  · intro hp
    subst hp
    rw [hperm.length_eq, if_neg (by simp), List.length_cons]
    have := getFallbackDistractors_length_le card allCards (jsOrNat n 4 - 1) rands
    omega
  · intro cardsToLoad provider rands2
    unfold initTestQueue
    rw [List.length_map, List.enum_length]

/-- Witness for C9 (amended) at a concrete input: a partial provider result
of 3 strings yields a 4-option question. -/
theorem test_init_distractor_policy_witness :
    (buildQuestion 4 false (fun l => l) cardA [cardA, cardB]
      ["x", "y", "z"] (fun _ => 0)).options.length = 1 + 3 :=
  (test_init_distractor_policy 4 false (fun l => l) (fun l => List.Perm.refl l)
    cardA [cardA, cardB] ["x", "y", "z"] (fun _ => 0)).2.1 (by decide)

/-- Counterexample to C9 as stated: with numberOfChoices 4, a partial
provider result of one string is not padded by the local fallback; the
built question offers 2 options, not 4. -/
theorem test_init_partial_result_not_padded :
    (initTestQueue 4 false (fun l => l) [cardA] [cardA, cardB]
        (fun _ => ["x"]) (fun _ _ => 0)).map (fun q => q.options.length) =
      [2] ∧ (2 : Nat) ≠ 4 := by
  constructor
  · rfl
  · decide

/-! ## Memorise-level: level construction and progression -/

/-- Under the reachable-session bound that the carry-over fits the level, the
raw level queue is the carry-over followed by the fresh cards taken from
the front of the pool, and the new pool is the corresponding drop. -/
theorem startLevelQueue_eq (wpl : Nat) (u r : List Card)
    (hlen : u.length ≤ wpl) :
    (startLevelQueue wpl u r).1 = u ++ r.take (wpl - u.length) ∧
    (startLevelQueue wpl u r).2 = r.drop (wpl - u.length) := by
  have hnneg : ¬ ((wpl : Int) - u.length < 0) := by omega
  have htn : Int.toNat ((wpl : Int) - u.length) = wpl - u.length := by omega
  simp only [startLevelQueue, jsSliceTo, jsSliceFrom, hnneg, if_false, htn]
  simp

/-- C7: with carry-over fitting the level bound and any queue shuffle, the
shuffled level queue holds at most wordsPerLevel entries and is a
permutation of the carry-over followed by the fresh front of the unseen
pool; the pool shrinks by exactly the number of fresh cards; the next
carry-over is exactly the set cards neither mastered overall nor still
unseen; the session finishes exactly when carry-over and pool are both
empty; and in the 7-per-level, 10-card example, level 1 takes 7 fresh
cards leaving 3 unseen, and after missing cards 1 and 2 once, level 2
holds those 2 carry-over cards plus the 3 remaining ones (5 entries). -/
theorem memorise_level_construction (wpl : Nat)
    (shuffle : List Card → List Card)
    (hsh : ∀ l, (shuffle l).Perm l) (u r : List Card)
    (hlen : u.length ≤ wpl) :
    (shuffle (startLevelQueue wpl u r).1).length ≤ wpl ∧
    (shuffle (startLevelQueue wpl u r).1).Perm
      (u ++ r.take (wpl - u.length)) ∧
    (startLevelQueue wpl u r).2 = r.drop (wpl - u.length) ∧
    (startLevelQueue wpl u r).2.length =
      r.length - (r.take (wpl - u.length)).length ∧
    (∀ (setCards : List Card) (overall lvlM : List String)
        (rem : List Card) (c : Card),
      c ∈ proceedCarryOver setCards overall lvlM rem ↔
        c ∈ setCards ∧ c.id ∉ overall ∧ c.id ∉ lvlM ∧
          c.id ∉ rem.map (fun d => d.id)) ∧
    (∀ (setCards : List Card) (overall lvlM : List String)
        (rem : List Card),
      proceedToNextLevel setCards overall lvlM rem = ProceedResult.finished ↔
        (proceedCarryOver setCards overall lvlM rem = [] ∧ rem = [])) ∧
    (startLevelQueue 7 [] exCards10 =
      (exCards10.take 7, exCards10.drop 7) ∧
     (exCards10.take 7).length = 7 ∧ (exCards10.drop 7).length = 3) ∧
    (proceedToNextLevel exCards10
        (finishLevelMerge []
          (memAnswerRun ⟨[], [], MPhase.normal⟩
            [("1", MAnswer.incorrect), ("2", MAnswer.incorrect),
             ("3", MAnswer.correct), ("4", MAnswer.correct),
             ("5", MAnswer.correct), ("6", MAnswer.correct),
             ("7", MAnswer.correct)]).levelMasteredIds)
        (memAnswerRun ⟨[], [], MPhase.normal⟩
          [("1", MAnswer.incorrect), ("2", MAnswer.incorrect),
           ("3", MAnswer.correct), ("4", MAnswer.correct),
           ("5", MAnswer.correct), ("6", MAnswer.correct),
           ("7", MAnswer.correct)]).levelMasteredIds
        (exCards10.drop 7) =
      ProceedResult.nextLevel (exCards10.take 2) (exCards10.drop 7) ∧
     (startLevelQueue 7 (exCards10.take 2) (exCards10.drop 7)).1 =
       exCards10.take 2 ++ exCards10.drop 7 ∧
     (startLevelQueue 7 (exCards10.take 2) (exCards10.drop 7)).1.length = 5 ∧
     (startLevelQueue 7 (exCards10.take 2) (exCards10.drop 7)).2 = []) := by
  obtain ⟨h1, h2⟩ := startLevelQueue_eq wpl u r hlen
  refine ⟨?_, ?_, h2, ?_, ?_, ?_, by decide, by decide⟩
  · rw [(hsh _).length_eq, h1, List.length_append, List.length_take]
    omega
  · rw [h1]
    exact hsh _
  · rw [h2, List.length_drop, List.length_take]
    omega
  · intro setCards overall lvlM rem c
    simp [proceedCarryOver, List.mem_filter]
  · intro setCards overall lvlM rem
    simp only [proceedToNextLevel]
    split
    · rename_i hcond
      rw [Bool.and_eq_true, List.isEmpty_iff, List.isEmpty_iff] at hcond
      exact iff_of_true rfl hcond
    · rename_i hcond
      constructor
      · intro h
        exact absurd h (by simp)
      · rintro ⟨hc, hr⟩
        refine absurd ?_ hcond
        rw [Bool.and_eq_true, List.isEmpty_iff, List.isEmpty_iff]
        exact ⟨hc, hr⟩

/-- Witness for C7 at a concrete input: the identity shuffle, no carry-over
and the ten example cards give a 7-entry level-1 queue. -/
theorem memorise_level_construction_witness :
    ((fun l => l) (startLevelQueue 7 [] exCards10).1).length ≤ 7 :=
  (memorise_level_construction 7 (fun l => l) (fun l => List.Perm.refl l)
    [] exCards10 (by decide)).1

/-! ## Termination of the session engines -/

/-- Rating the head know always shortens the memorise-all queue to its tail,
so know-ratings empty the queue in exactly its length and finish the
session. -/
theorem memoriseKnowRun_empties :
    ∀ (q : List Card) (s : FlashState), s.queue = q → q ≠ [] →
      (memoriseKnowRun s q.length).queue = [] ∧
      (memoriseKnowRun s q.length).sessionState = FSessionState.finished := by
  intro q
  induction q with
  | nil => exact fun s _ h => absurd rfl h
  | cons c rest ih =>
    intro s hq _
    obtain ⟨queue, idx, ss, cnt, mids, flip⟩ := s
    simp only at hq
    subst hq
    cases rest with
    | nil =>
      constructor <;> simp [memoriseKnowRun, handleNextCardMemorise]
    | cons r rs =>
      have hstep :
          (handleNextCardMemorise
            ⟨c :: r :: rs, idx, ss, cnt, mids, flip⟩ Rating.know).queue =
            r :: rs := by
        simp [handleNextCardMemorise]
      exact ih _ hstep (by simp)

/-- Counterexample to C1 as stated: a memorise-all session on one card rated
dont_know forever never reaches an empty queue; the session-ending state is
not reached under this answer sequence. -/
theorem memorise_all_wrong_answers_loop :
    ¬ memoriseTerminates mem1State := by
  intro h
  obtain ⟨n, hn⟩ := h (fun _ => Rating.dont_know)
  have hfix : ∀ m : Nat,
      memoriseRun mem1State (List.replicate m Rating.dont_know) = mem1State := by
    intro m
    induction m with
    | zero => rfl
    | succ m ihm =>
      rw [List.replicate_succ]
      show memoriseRun (handleNextCardMemorise mem1State Rating.dont_know)
        (List.replicate m Rating.dont_know) = mem1State
      rw [show handleNextCardMemorise mem1State Rating.dont_know = mem1State by decide]
      exact ihm
  have hmap : (List.range n).map (fun _ => Rating.dont_know) =
      List.replicate n Rating.dont_know := by
    rw [List.eq_replicate_iff]
    constructor
    · simp
    · intro b hb
      rcases List.mem_map.mp hb with ⟨_, _, rfl⟩
      rfl
  rw [hmap, hfix] at hn
  exact absurd hn (by decide)

/-- An all-correct interaction strictly decreases the Test measure on a
nonempty queue. -/
theorem testMeasure_decreases (t : Nat) (s : TestState) (h : s.queue ≠ []) :
    testMeasure t (testStepCorrect t s) < testMeasure t s := by
  obtain ⟨queue, cmap, fin⟩ := s
  cases queue with
  | nil => exact absurd rfl h
  | cons q rest =>
    show testMeasure t (testStep t ⟨q :: rest, cmap, fin⟩ q.correctAnswer) < _
    have hq := testStep_queue_eq t q rest cmap fin q.correctAnswer
    have hm := testStep_cmap_eq t q rest cmap fin q.correctAnswer
    rw [if_pos rfl] at hq
    rw [if_pos rfl] at hm
    unfold testMeasure
    rw [hq, hm]
    have hS : ∀ L : List Question,
        (L.map (fun e => jsOrNat t 3 -
          (if e.originalCardId = q.originalCardId then
            cmap q.originalCardId + 1
          else cmap e.originalCardId))).sum ≤
        (L.map (fun e => jsOrNat t 3 - cmap e.originalCardId)).sum := by
      intro L
      refine List.sum_le_sum ?_
      intro e he
      by_cases hce : e.originalCardId = q.originalCardId
      · rw [if_pos hce, hce]
        omega
      · rw [if_neg hce]
    by_cases hlt : cmap q.originalCardId + 1 < jsOrNat t 3
    · rw [if_pos hlt]
      have h1 := hS rest
      simp only [List.map_append, List.sum_append, List.length_append,
        List.map_cons, List.sum_cons, List.length_cons, List.map_nil,
        List.sum_nil, List.length_nil, if_pos rfl, ite_true]
      omega
    · rw [if_neg hlt]
      have h1 := hS rest
      simp only [List.map_cons, List.sum_cons, List.length_cons, if_pos rfl,
        ite_true]
      omega

/-- A step on an empty Test queue changes nothing. -/
theorem testStepCorrect_empty (t : Nat) (s : TestState) (h : s.queue = []) :
    testStepCorrect t s = s := by
  obtain ⟨queue, cmap, fin⟩ := s
  simp only at h
  subst h
  rfl

/-- The finished flag after an interaction is set exactly by the emptiness of
the resulting queue (keeping its old value otherwise). -/
theorem testStep_isFinished (t : Nat) (q : Question) (rest : List Question)
    (cmap : String → Nat) (fin : Bool) (o : String) :
    (testStep t ⟨q :: rest, cmap, fin⟩ o).isFinished =
      (if (testStep t ⟨q :: rest, cmap, fin⟩ o).queue.isEmpty then true
       else fin) := by
  by_cases h : o = q.correctAnswer <;>
    simp [testStep, handleAnswer, handleNext, h]

/-- Under all-correct answers the Test queue empties within the measure, and
the session is flagged finished. -/
theorem testRunCorrect_empties (t : Nat) :
    ∀ (m : Nat) (s : TestState), testMeasure t s ≤ m →
      ∃ n, (testRunCorrect t s n).queue = [] ∧
        (s.queue ≠ [] → (testRunCorrect t s n).isFinished = true) := by
  intro m
  induction m with
  | zero =>
    intro s hm
    cases hq : s.queue with
    | nil => exact ⟨0, hq, fun hne => absurd rfl hne⟩
    | cons q rest =>
      exfalso
      have hlen : s.queue.length ≤ testMeasure t s := Nat.le_add_left _ _
      rw [hq] at hlen
      simp at hlen
      omega
  | succ m ih =>
    intro s hm
    cases hq : s.queue with
    | nil => exact ⟨0, hq, fun hne => absurd rfl hne⟩
    | cons q rest =>
      have hne : s.queue ≠ [] := by rw [hq]; simp
      have hdec := testMeasure_decreases t s hne
      by_cases hq' : (testStepCorrect t s).queue = []
      · refine ⟨1, hq', fun _ => ?_⟩
        show (testStepCorrect t s).isFinished = true
        obtain ⟨queue, cmap, fin⟩ := s
        simp only at hq
        subst hq
        show (testStep t ⟨q :: rest, cmap, fin⟩ q.correctAnswer).isFinished = true
        rw [testStep_isFinished, if_pos]
        rw [List.isEmpty_iff]
        exact hq'
      · obtain ⟨n, hn, hfin⟩ := ih (testStepCorrect t s) (by omega)
        exact ⟨n + 1, hn, fun _ => hfin hq'⟩

/-- Membership after merging the level result into the overall mastered
set. -/
theorem mem_finishLevelMerge (x : String) :
    ∀ (lvlM overall : List String),
      x ∈ finishLevelMerge overall lvlM ↔ x ∈ overall ∨ x ∈ lvlM := by
  intro lvlM
  induction lvlM with
  | nil => intro overall; simp [finishLevelMerge]
  | cons i rest ih =>
    intro overall
    show x ∈ finishLevelMerge (overall.insert i) rest ↔ _
    rw [ih]
    simp [List.mem_insert_iff]
    tauto

/-- For an event list of only correct answers, the scan grants mastery
exactly to the answered cards. -/
theorem masteredOutcome_allCorrect (x : String) :
    ∀ es : List (String × MAnswer), (∀ e ∈ es, e.2 = MAnswer.correct) →
      (masteredOutcome x false es = true ↔ x ∈ es.map (fun e => e.1)) := by
  intro es
  induction es with
  | nil => intro _; simp [masteredOutcome]
  | cons e rest ih =>
    intro hall
    obtain ⟨c, a⟩ := e
    have ha : a = MAnswer.correct := hall (c, a) (List.mem_cons_self _ _)
    subst ha
    by_cases hc : c = x
    · subst hc
      simp [masteredOutcome]
    · rw [show masteredOutcome x false ((c, MAnswer.correct) :: rest) =
          masteredOutcome x false rest by simp [masteredOutcome, hc]]
      rw [ih (fun e he => hall e (List.mem_cons_of_mem _ he))]
      have hxc : ¬ x = c := fun h => hc h.symm
      simp [hxc]

/-- One all-correct level from a running state with empty carry-over: the
session either finishes (when nothing of the pool remains) or runs the
next level on the pool minus its first wordsPerLevel cards, preserving the
coverage invariant. -/
theorem memLevelAllCorrectStep_running (wpl : Nat)
    (shuffle : List Card → List Card) (hsh : ∀ l, (shuffle l).Perm l)
    (setCards : List Card) (overall : List String) (r : List Card)
    (hinv : ∀ c ∈ setCards, c.id ∈ overall ∨ c.id ∈ r.map (fun d => d.id)) :
    (r.drop wpl = [] ∧
      memLevelAllCorrectStep wpl shuffle setCards
        (MemSessionState.running overall [] r) = MemSessionState.finished) ∨
    (r.drop wpl ≠ [] ∧
      ∃ overall',
        memLevelAllCorrectStep wpl shuffle setCards
          (MemSessionState.running overall [] r) =
          MemSessionState.running overall' [] (r.drop wpl) ∧
        ∀ c ∈ setCards, c.id ∈ overall' ∨
          c.id ∈ (r.drop wpl).map (fun d => d.id)) := by
  have hsq := startLevelQueue_eq wpl [] r (by simp)
  simp only [List.nil_append, List.length_nil, Nat.sub_zero] at hsq
  have hall : ∀ e ∈ (shuffle (startLevelQueue wpl [] r).1).map
      (fun c => (c.id, MAnswer.correct)), e.2 = MAnswer.correct := by
    intro e he
    rcases List.mem_map.mp he with ⟨c, _, rfl⟩
    rfl
  have hmast : ∀ x,
      x ∈ (memAnswerRun ⟨[], [], MPhase.normal⟩
        ((shuffle (startLevelQueue wpl [] r).1).map
          (fun c => (c.id, MAnswer.correct)))).levelMasteredIds ↔
      x ∈ (r.take wpl).map (fun d => d.id) := by
    intro x
    rw [mem_levelMastered_memAnswerRun _ ⟨[], [], MPhase.normal⟩ rfl x]
    rw [show decide (x ∈ ([] : List String)) = false by simp]
    rw [masteredOutcome_allCorrect x _ hall]
    simp only [List.not_mem_nil, false_or, List.map_map]
    have hperm := (hsh (startLevelQueue wpl [] r).1).map
      (fun c : Card => c.id)
    rw [hsq.1] at hperm
    have := hperm.mem_iff (a := x)
    rw [show ((fun e : String × MAnswer => e.1) ∘
        (fun c : Card => (c.id, MAnswer.correct))) = fun c : Card => c.id
      from rfl]
    exact this
  have hover : ∀ x,
      x ∈ finishLevelMerge overall
        (memAnswerRun ⟨[], [], MPhase.normal⟩
          ((shuffle (startLevelQueue wpl [] r).1).map
            (fun c => (c.id, MAnswer.correct)))).levelMasteredIds ↔
      x ∈ overall ∨ x ∈ (r.take wpl).map (fun d => d.id) := by
    intro x
    rw [mem_finishLevelMerge, hmast]
  have hcarry : proceedCarryOver setCards
      (finishLevelMerge overall
        (memAnswerRun ⟨[], [], MPhase.normal⟩
          ((shuffle (startLevelQueue wpl [] r).1).map
            (fun c => (c.id, MAnswer.correct)))).levelMasteredIds)
      (memAnswerRun ⟨[], [], MPhase.normal⟩
        ((shuffle (startLevelQueue wpl [] r).1).map
          (fun c => (c.id, MAnswer.correct)))).levelMasteredIds
      (r.drop wpl) = [] := by
    unfold proceedCarryOver
    rw [List.filter_eq_nil_iff]
    intro c hc
    simp only [decide_eq_true_eq, not_and, not_not]
    intro hov hlm
    rcases hinv c hc with hco | hcr
    · exact absurd ((hover c.id).mpr (Or.inl hco)) hov
    · rw [show r = r.take wpl ++ r.drop wpl from (List.take_append_drop _ _).symm,
        List.map_append, List.mem_append] at hcr
      rcases hcr with hcr | hcr
      · exact absurd ((hover c.id).mpr (Or.inr hcr)) hov
      · exact hcr
  have hstep : memLevelAllCorrectStep wpl shuffle setCards
      (MemSessionState.running overall [] r) =
      (match proceedToNextLevel setCards
          (finishLevelMerge overall
            (memAnswerRun ⟨[], [], MPhase.normal⟩
              ((shuffle (startLevelQueue wpl [] r).1).map
                (fun c => (c.id, MAnswer.correct)))).levelMasteredIds)
          (memAnswerRun ⟨[], [], MPhase.normal⟩
            ((shuffle (startLevelQueue wpl [] r).1).map
              (fun c => (c.id, MAnswer.correct)))).levelMasteredIds
          (startLevelQueue wpl [] r).2 with
        | ProceedResult.finished => MemSessionState.finished
        | ProceedResult.nextLevel carry rem =>
          MemSessionState.running
            (finishLevelMerge overall
              (memAnswerRun ⟨[], [], MPhase.normal⟩
                ((shuffle (startLevelQueue wpl [] r).1).map
                  (fun c => (c.id, MAnswer.correct)))).levelMasteredIds)
            carry rem) := rfl
  rw [hsq.2] at hstep
  cases hdrop : r.drop wpl with
  | nil =>
    left
    refine ⟨rfl, ?_⟩
    rw [hstep, hdrop]
    rw [show proceedToNextLevel setCards _ _ ([] : List Card) =
        ProceedResult.finished from ?_]
    · rw [hdrop] at hcarry
      simp only [proceedToNextLevel, hcarry]
      rfl
  | cons d ds =>
    right
    refine ⟨by simp,
      finishLevelMerge overall
        (memAnswerRun ⟨[], [], MPhase.normal⟩
          ((shuffle (startLevelQueue wpl [] r).1).map
            (fun c => (c.id, MAnswer.correct)))).levelMasteredIds, ?_, ?_⟩
    · rw [hstep, hdrop]
      rw [hdrop] at hcarry
      simp only [proceedToNextLevel, hcarry]
      simp
    · intro c hc
      rcases hinv c hc with hco | hcr
      · exact Or.inl ((hover c.id).mpr (Or.inl hco))
      · rw [show r = r.take wpl ++ r.drop wpl from
            (List.take_append_drop _ _).symm,
          List.map_append, List.mem_append] at hcr
        rcases hcr with hcr | hcr
        · exact Or.inl ((hover c.id).mpr (Or.inr hcr))
        · rw [hdrop] at hcr
          exact Or.inr hcr

/-- All-correct memorise-level sessions starting with empty carry-over and a
covered pool finish within finitely many levels. -/
theorem memLevelAllCorrect_terminates (wpl : Nat) (hwpl : 1 ≤ wpl)
    (shuffle : List Card → List Card) (hsh : ∀ l, (shuffle l).Perm l)
    (setCards : List Card) :
    ∀ (m : Nat) (overall : List String) (r : List Card), r.length ≤ m →
      (∀ c ∈ setCards, c.id ∈ overall ∨ c.id ∈ r.map (fun d => d.id)) →
      ∃ k, memLevelAllCorrectRun wpl shuffle setCards
        (MemSessionState.running overall [] r) k = MemSessionState.finished := by
  intro m
  induction m with
  | zero =>
    intro overall r hr hinv
    have hr0 : r = [] := List.length_eq_zero.mp (Nat.le_zero.mp hr)
    subst hr0
    rcases memLevelAllCorrectStep_running wpl shuffle hsh setCards overall [] hinv with
      ⟨_, hf⟩ | ⟨hne, _⟩
    · refine ⟨1, ?_⟩
      show memLevelAllCorrectRun wpl shuffle setCards
        (memLevelAllCorrectStep wpl shuffle setCards
          (MemSessionState.running overall [] [])) 0 = MemSessionState.finished
      rw [hf]
      rfl
    · exact absurd (by simp) hne
  | succ m ih =>
    intro overall r hr hinv
    rcases memLevelAllCorrectStep_running wpl shuffle hsh setCards overall r hinv with
      ⟨_, hf⟩ | ⟨hne, overall', hstep, hinv'⟩
    · refine ⟨1, ?_⟩
      show memLevelAllCorrectRun wpl shuffle setCards
        (memLevelAllCorrectStep wpl shuffle setCards
          (MemSessionState.running overall [] r)) 0 = MemSessionState.finished
      rw [hf]
      rfl
    · have hrne : r ≠ [] := by
        intro h
        subst h
        exact hne (by simp)
      have hlen : (r.drop wpl).length ≤ m := by
        rw [List.length_drop]
        have h1 : 1 ≤ r.length := List.length_pos.mpr hrne
        omega
      obtain ⟨k, hk⟩ := ih overall' (r.drop wpl) hlen hinv'
      refine ⟨k + 1, ?_⟩
      show memLevelAllCorrectRun wpl shuffle setCards
        (memLevelAllCorrectStep wpl shuffle setCards
          (MemSessionState.running overall [] r)) k = MemSessionState.finished
      rw [hstep]
      exact hk

/-- C1 (amended): every engine reaches its session-ending state in finitely
many steps when every answer is correct (know ratings in memorise-all,
correct options in Test, correct answers in every memorise level); for
arbitrary answer sequences the claim fails, since a perpetually wrong
answer re-queues its card forever. -/
theorem sessions_terminate_on_correct_answers
    (wpl : Nat) (hwpl : 1 ≤ wpl) (shuffle : List Card → List Card)
    (hsh : ∀ l, (shuffle l).Perm l) (setCards rem0 : List Card)
    (hperm : rem0.Perm setCards) :
    (∀ s : FlashState, s.queue ≠ [] →
      (memoriseKnowRun s s.queue.length).queue = [] ∧
      (memoriseKnowRun s s.queue.length).sessionState = FSessionState.finished) ∧
    (∀ (t : Nat) (s : TestState), s.queue ≠ [] →
      ∃ n, (testRunCorrect t s n).queue = [] ∧
        (testRunCorrect t s n).isFinished = true) ∧
    (∃ k, memLevelAllCorrectRun wpl shuffle setCards
      (MemSessionState.running [] [] rem0) k = MemSessionState.finished) := by
  refine ⟨?_, ?_, ?_⟩
  · intro s hs
    exact memoriseKnowRun_empties s.queue s rfl hs
  · intro t s hs
    obtain ⟨n, hn, hfin⟩ := testRunCorrect_empties t (testMeasure t s) s le_rfl
    exact ⟨n, hn, hfin hs⟩
  · refine memLevelAllCorrect_terminates wpl hwpl shuffle hsh setCards
      rem0.length [] rem0 le_rfl ?_
    intro c hc
    exact Or.inr (List.mem_map.mpr ⟨c, hperm.mem_iff.mpr hc, rfl⟩)

/-- Witness for C1 (amended) at a concrete input: a one-card memorise-level
session with one word per level and the identity shuffle finishes, and the
one-question Test session empties under correct answers. -/
theorem sessions_terminate_on_correct_answers_witness :
    (∃ k, memLevelAllCorrectRun 1 (fun l => l) [cardA]
      (MemSessionState.running [] [] [cardA]) k = MemSessionState.finished) ∧
    (∃ n, (testRunCorrect 3 exTestState n).queue = [] ∧
      (testRunCorrect 3 exTestState n).isFinished = true) :=
  ⟨(sessions_terminate_on_correct_answers 1 (by decide) (fun l => l)
      (fun l => List.Perm.refl l) [cardA] [cardA] (List.Perm.refl _)).2.2,
   (sessions_terminate_on_correct_answers 1 (by decide) (fun l => l)
      (fun l => List.Perm.refl l) [cardA] [cardA] (List.Perm.refl _)).2.1 3
      exTestState (by decide)⟩

end StudyMate
